import Mathlib

/-!
Verification of the response-to-filesystem materialization pipeline of
`superagi/tools/code/write_code.py` (class `CodingTool`).

The development shallowly embeds:
  * the parsing step of `_execute`, i.e. the Python regular expression
    search `re.finditer(r"(\S+?)\n```\S+\n(.+?)```", text, re.DOTALL)`.
    For this particular pattern the backtracking behaviour is
    deterministic, so it is embedded as an executable scanner
    (`matchAtSuffix` / `parseBlocks`) over `List Char`;
  * filename sanitization (the re.sub call deleting the characters
    listed in isForbidden) and the
    truthiness test `file_name.strip()`;
  * the path resolution of `write_codes_to_file` (lines 65-72);
  * the effectful part of `write_codes_to_file` and `_execute`, with the
    external collaborators (database session, resource registration,
    S3 upload, LLM call) abstracted into an environment `Env` whose
    fields say which external call raises, and with side effects
    recorded as a trace of `Eff` events.

The Python class \s over these inputs is modelled by the six ASCII whitespace
characters, and machine strings are `List Char`.
-/

namespace CodingTool

/-- The six ASCII whitespace characters recognized by the regex class `\s`. -/
def isPyWs (c : Char) : Bool :=
  c = ' ' || c = '\t' || c = '\n' || c = '\r' || c = '\x0b' || c = '\x0c'

/-- Character class `\S` of the regex. -/
def nonWs (c : Char) : Bool := !isPyWs c

/-- The backtick character (written via its code point). -/
def btick : Char := Char.ofNat 96

/-- The fence delimiter three-backtick sequence. -/
def fenceL : List Char := [btick, btick, btick]

/-- Strip a leading fence delimiter, the literal ` ``` ` of the regex. -/
def stripFence (t : List Char) : Option (List Char) :=
  if fenceL.isPrefixOf t then some (t.drop 3) else none

/-- Lazy content matching of `(.+?)` followed by the closing literal
` ``` `: splits `t` into the shortest nonempty content such that a fence
delimiter follows, together with what comes after that delimiter. -/
def findClose : List Char → Option (List Char × List Char)
  | [] => none
  | c :: cs =>
    match stripFence cs with
    | some rest => some ([c], rest)
    | none =>
      match findClose cs with
      | some (content, rest) => some (c :: content, rest)
      | none => none

/-- One attempt of the regex pattern anchored at the
start of `s` (DOTALL).  For this pattern backtracking is deterministic:
the lazy `\S+?` and the greedy `\S+` are both forced to the maximal
whitespace-free run because the following character must be `'\n'`,
which is whitespace.  Returns the two captures and the remainder of the
string after the match. -/
def matchAtSuffix (s : List Char) : Option (List Char × List Char × List Char) :=
  match List.dropWhile nonWs s with
  | '\n' :: r2 =>
    if (List.takeWhile nonWs s).isEmpty then none
    else
      match stripFence r2 with
      | some r3 =>
        match List.dropWhile nonWs r3 with
        | '\n' :: r5 =>
          if (List.takeWhile nonWs r3).isEmpty then none
          else
            match findClose r5 with
            | some (content, rest) => some (List.takeWhile nonWs s, content, rest)
            | none => none
        | _ => none
      | none => none
  | _ => none

/-- Fuelled scanner implementing `re.finditer`: at each position try the
anchored match; on success emit the captures and resume after the match,
otherwise advance one character. -/
def finditerF : Nat → List Char → List (List Char × List Char)
  | 0, _ => []
  | n + 1, s =>
    match matchAtSuffix s with
    | some (f, c, rest) => (f, c) :: finditerF n rest
    | none =>
      match s with
      | [] => []
      | _ :: cs => finditerF n cs

/-- The parsing step of `_execute`: all non-overlapping matches of the
pattern, in order, as (group 1, group 2) pairs. -/
def parseBlocks (s : List Char) : List (List Char × List Char) :=
  finditerF (s.length + 1) s

/-- Fuelled version of the Python split of a text on the fence delimiter. -/
def splitFenceF : Nat → List Char → List (List Char)
  | 0, _ => [[]]
  | _ + 1, [] => [[]]
  | n + 1, c :: cs =>
    match stripFence (c :: cs) with
    | some rest => [] :: splitFenceF n rest
    | none =>
      match splitFenceF n cs with
      | [] => [[c]]
      | h :: t => (c :: h) :: t

/-- The Python split of a text on the fence delimiter, used by `_execute` for the README. -/
def splitFence (s : List Char) : List (List Char) :=
  splitFenceF (s.length + 1) s

/-- The prefix of a text before its first fence delimiter (the whole
text when there is none). -/
def beforeFence : List Char → List Char
  | [] => []
  | c :: cs => if fenceL.isPrefixOf (c :: cs) then [] else c :: beforeFence cs

/-- Whether a text contains the fence delimiter as a substring. -/
def hasFence : List Char → Bool
  | [] => false
  | c :: cs => fenceL.isPrefixOf (c :: cs) || hasFence cs

/-- The characters removed from captured filenames by the re.sub call. -/
def isForbidden (c : Char) : Bool :=
  c = '<' || c = '>' || c = '\"' || c = '|' || c = '?' || c = '*'

/-- Filename sanitization of `_execute`. -/
def sanitize (l : List Char) : List Char := l.filter (fun c => !isForbidden c)

/-- The Python method str.strip of a string. -/
def pyStrip (l : List Char) : List Char :=
  ((l.dropWhile isPyWs).reverse.dropWhile isPyWs).reverse

/-! ## Path resolution (`write_codes_to_file`, lines 65-72) -/

/-- Normalization of a configured `RESOURCES_OUTPUT_ROOT_DIR`: prefix the
working directory unless the root starts with `/` (line 67 of the
source), then append `/` unless the root already ends with `/`
(line 68). -/
def normRoot (root cwd : List Char) : List Char :=
  if List.isSuffixOf ['/']
      (if List.isPrefixOf ['/'] root then root else cwd ++ '/' :: root) then
    (if List.isPrefixOf ['/'] root then root else cwd ++ '/' :: root)
  else
    (if List.isPrefixOf ['/'] root then root else cwd ++ '/' :: root) ++ ['/']

/-- The destination path computed by `write_codes_to_file` for a logical
file name, given the configured root (`none` when unset) and the working
directory. -/
def finalPath (rootDir : Option (List Char)) (cwd fname : List Char) : List Char :=
  match rootDir with
  | some root => normRoot root cwd ++ fname
  | none => cwd ++ '/' :: fname

/-- Whether a path ends with exactly one `/`. -/
def endsWithOneSep (l : List Char) : Bool :=
  List.isSuffixOf ['/'] l && !(List.isSuffixOf ['/', '/'] l)

/-! ## Effectful model of `write_codes_to_file` and `_execute` -/

/-- The catalog row built by `ResourceHelper.make_written_file_resource`. -/
structure Resource where
  storage_type : List Char
  path : List Char
deriving DecidableEq

/-- Outcome of the resource-registration call: an entry, no entry
(`None`), or an exception with message `m`. -/
inductive RegResult where
  | ok (r : Resource)
  | noEntry
  | exn (m : List Char)
deriving DecidableEq

/-- Environment abstracting the external collaborators.  Each `Option`
field is `some m` when that external call raises an exception whose
rendered message is `m`, and `none` when it succeeds.  `register` is
keyed by the logical file name, `writeExn` by the destination path and
`uploadExn` by the upload path, mirroring the arguments the source
passes to each collaborator. -/
structure Env where
  rootDir : Option (List Char)
  cwd : List Char
  connectExn : Option (List Char)
  writeExn : List Char → Option (List Char)
  register : List Char → RegResult
  commitExn : List Char → Option (List Char)
  uploadExn : List Char → Option (List Char)
  llm : Except (List Char) (List Char)

/-- Observable side effects of one run, in order of occurrence. -/
inductive Eff where
  | sessionOpen
  | fileWrite (path content : List Char)
  | commitDone (fname : List Char)
  | upload (path : List Char)
  | sessionClose
deriving DecidableEq

/-- Return value of the success branch of `write_codes_to_file`. -/
def okSave : List Char := ("Codes saved successfully").data

/-- Message prefix of the `except` branch of `write_codes_to_file`. -/
def errSaveMsg : List Char := ("Error saving codes to file: ").data

/-- Message prefix of the `except` branch of `_execute`. -/
def errGenMsg : List Char := ("Error generating codes: ").data

/-- Return value of the success branch of `_execute`. -/
def successMsg : List Char := ("codes generated and saved successfully").data

/-- The prefix tested by `save_result.startswith("Error")`. -/
def errTok : List Char := ("Error").data

/-- Rendered message of the `UnboundLocalError` raised by the `except`
branch of `write_codes_to_file` when the exception occurred before the
local `session` was assigned (the exact interpreter wording is
version-dependent and irrelevant to the claims). -/
def nameErrorMsg : List Char :=
  ("UnboundLocalError: local variable session referenced before assignment").data

/-- Shallow embedding of `CodingTool.write_codes_to_file`.  Returns
`Except.ok s` when the Python function returns the string `s`, and
`Except.error m` when an exception escapes it, together with the trace
of side effects that happened before returning.  The translation of the
`try`/`except` is:

  * if `connect_db()` / `sessionmaker` / `Session()` raises, control
    reaches `except Exception as e: session.close()` with the local
    `session` unbound, so the handler itself raises `UnboundLocalError`,
    which escapes the function (no session was opened, none is closed);
  * any later exception is converted to
    `"Error saving codes to file: " + message` and the session is
    closed first;
  * `register = exn` covers both re-opening the file for reading and
    `make_written_file_resource` raising; `commitExn` covers
    `session.add` / `session.commit` / `session.flush`. -/
def writeCodes (env : Env) (content fname : List Char) :
    Except (List Char) (List Char) × List Eff :=
  match env.connectExn with
  | some _ => (Except.error nameErrorMsg, [])
  | none =>
    match env.writeExn (finalPath env.rootDir env.cwd fname) with
    | some m => (Except.ok (errSaveMsg ++ m), [Eff.sessionOpen, Eff.sessionClose])
    | none =>
      match env.register fname with
      | RegResult.exn m =>
        (Except.ok (errSaveMsg ++ m),
          [Eff.sessionOpen,
            Eff.fileWrite (finalPath env.rootDir env.cwd fname) content,
            Eff.sessionClose])
      | RegResult.noEntry =>
        (Except.ok okSave,
          [Eff.sessionOpen,
            Eff.fileWrite (finalPath env.rootDir env.cwd fname) content,
            Eff.sessionClose])
      | RegResult.ok r =>
        match env.commitExn fname with
        | some m =>
          (Except.ok (errSaveMsg ++ m),
            [Eff.sessionOpen,
              Eff.fileWrite (finalPath env.rootDir env.cwd fname) content,
              Eff.sessionClose])
        | none =>
          if r.storage_type = ("S3").data then
            match env.uploadExn r.path with
            | some m =>
              (Except.ok (errSaveMsg ++ m),
                [Eff.sessionOpen,
                  Eff.fileWrite (finalPath env.rootDir env.cwd fname) content,
                  Eff.commitDone fname, Eff.upload r.path, Eff.sessionClose])
            | none =>
              (Except.ok okSave,
                [Eff.sessionOpen,
                  Eff.fileWrite (finalPath env.rootDir env.cwd fname) content,
                  Eff.commitDone fname, Eff.upload r.path, Eff.sessionClose])
          else
            (Except.ok okSave,
              [Eff.sessionOpen,
                Eff.fileWrite (finalPath env.rootDir env.cwd fname) content,
                Eff.commitDone fname, Eff.sessionClose])

/-- Outcome of the per-record loop of `_execute`. -/
inductive LoopOut where
  | done
  | early (s : List Char)
  | raised (m : List Char)
deriving DecidableEq

/-- The `for match in matches` loop of `_execute`: sanitize the captured
filename, skip records whose name strips to empty, persist the rest,
and stop at the first result that starts with `"Error"`.  `raised`
records an exception escaping `write_codes_to_file`, which the `except`
of `_execute` will catch. -/
def processRecords (env : Env) : List (List Char × List Char) → LoopOut × List Eff
  | [] => (LoopOut.done, [])
  | (g, code) :: rest =>
    if (pyStrip (sanitize g)).isEmpty then processRecords env rest
    else
      match writeCodes env code (sanitize g) with
      | (Except.error m, tr) => (LoopOut.raised m, tr)
      | (Except.ok s, tr) =>
        if errTok.isPrefixOf s then (LoopOut.early s, tr)
        else
          let (o, tr2) := processRecords env rest
          (o, tr ++ tr2)

/-- Shallow embedding of `CodingTool._execute`: obtain the model
response (the prompt construction is pure string substitution and the
LLM call is the black box `env.llm`), parse it, persist each record,
then persist the README, converting any escaped exception into an
`"Error generating codes: "` result at the boundary.  Python cannot
raise past this function (the `except Exception` converts everything),
so the embedding returns a plain result string plus the effect trace. -/
def execute (env : Env) : List Char × List Eff :=
  match env.llm with
  | Except.error m => (errGenMsg ++ m, [])
  | Except.ok content =>
    match processRecords env (parseBlocks content) with
    | (LoopOut.early s, tr) => (s, tr)
    | (LoopOut.raised m, tr) => (errGenMsg ++ m, tr)
    | (LoopOut.done, tr) =>
      let sr := splitFence content
      if 0 < sr.length then
        match writeCodes env (sr.headD []) (("README.md").data) with
        | (Except.error m, tr2) => (errGenMsg ++ m, tr ++ tr2)
        | (Except.ok s, tr2) =>
          if errTok.isPrefixOf s then (s, tr ++ tr2)
          else (successMsg, tr ++ tr2)
      else (successMsg, tr)

/-! ## Observations on traces -/

/-- The file writes of a trace, in order. -/
def writesOf (tr : List Eff) : List (List Char × List Char) :=
  tr.filterMap (fun e =>
    match e with
    | Eff.fileWrite p c => some (p, c)
    | _ => none)

/-- The upload invocations of a trace, in order. -/
def uploadsOf (tr : List Eff) : List (List Char) :=
  tr.filterMap (fun e =>
    match e with
    | Eff.upload p => some p
    | _ => none)

/-- An environment in which every external call succeeds. -/
def EnvOk (env : Env) : Prop :=
  env.connectExn = none ∧ (∀ p, env.writeExn p = none) ∧
    (∀ f m, env.register f ≠ RegResult.exn m) ∧
    (∀ f, env.commitExn f = none) ∧ (∀ p, env.uploadExn p = none)

/-- A record that does not abort the loop: it is either skipped because
its sanitized name strips to empty, or persisted successfully. -/
def okRecord (env : Env) (r : List Char × List Char) : Prop :=
  (pyStrip (sanitize r.1)).isEmpty = true ∨
    (writeCodes env r.2 (sanitize r.1)).1 = Except.ok okSave

/-- The trace one record contributes when the loop does not abort at it. -/
def recTrace (env : Env) (r : List Char × List Char) : List Eff :=
  if (pyStrip (sanitize r.1)).isEmpty then []
  else (writeCodes env r.2 (sanitize r.1)).2

/-- Concatenated traces of a list of non-aborting records. -/
def recsTrace (env : Env) (rs : List (List Char × List Char)) : List Eff :=
  rs.foldr (fun r acc => recTrace env r ++ acc) []

/-- The file writes an all-success run performs for the parsed records. -/
def successWrites (env : Env) (rs : List (List Char × List Char)) :
    List (List Char × List Char) :=
  rs.foldr
    (fun r acc =>
      (if (pyStrip (sanitize r.1)).isEmpty then []
        else [(finalPath env.rootDir env.cwd (sanitize r.1), r.2)]) ++ acc)
    []

/-! ## Well-formed responses, for the parser claims -/

/-- A file block of a model response: filename line, language tag,
content. -/
structure Block where
  fname : List Char
  lang : List Char
  content : List Char
deriving DecidableEq

/-- The text of one well-formed block: the filename line, an opening
fence with a language tag, the content, and the closing fence. -/
def renderBlock (b : Block) : List Char :=
  b.fname ++ '\n' :: (fenceL ++ (b.lang ++ '\n' :: (b.content ++ fenceL)))

/-- A response text assembled from separator texts and blocks, ending
with a final trailing text. -/
def render : List (List Char × Block) → List Char → List Char
  | [], fin => fin
  | (sep, b) :: rest, fin => sep ++ (renderBlock b ++ render rest fin)

/-- Conditions on the text standing before a block: empty, or free of
backticks and ending in whitespace (so that the filename line is
separated from the preceding text). -/
def sepOk : List Char → Bool
  | [] => true
  | [c] => isPyWs c
  | c :: c2 :: rest => !(c = btick) && sepOk (c2 :: rest)

/-- Well-formedness of a block: a nonempty whitespace-free filename
token that does not itself begin with a fence delimiter, a nonempty
whitespace-free language tag, and nonempty content containing no early
closing fence (no fence delimiter may start at any position past the
first character of the content, including one formed together with the
closing delimiter). -/
def blockOk (b : Block) : Bool :=
  !b.fname.isEmpty && b.fname.all nonWs && !(fenceL.isPrefixOf b.fname) &&
    !b.lang.isEmpty && b.lang.all nonWs &&
    !b.content.isEmpty && !hasFence (b.content.drop 1 ++ [btick, btick])

/-- The file records of the parsing step, with sanitized filenames, as
consumed by the persistence loop of `_execute`. -/
def parsedRecords (resp : List Char) : List (List Char × List Char) :=
  (parseBlocks resp).map (fun p => (sanitize p.1, p.2))

/-! ## Concrete instances used by the witnesses -/

/-- A baseline environment in which every external call succeeds. -/
def env0 : Env where
  rootDir := some (("out").data)
  cwd := ("/w").data
  connectExn := none
  writeExn := fun _ => none
  register := fun _ => RegResult.noEntry
  commitExn := fun _ => none
  uploadExn := fun _ => none
  llm := Except.ok []

/-- Environment whose database connection raises. -/
def envC2 : Env :=
  { env0 with rootDir := none, connectExn := some (("DB unreachable").data) }

/-- A three-block response for the abort witness. -/
def respC3 : List Char :=
  ("a.py\n```py\nA```b.py\n```py\nB```c.py\n```py\nC```").data

/-- Environment in which writing the file `/w/b.py` raises. -/
def envC3 : Env :=
  { env0 with
      rootDir := none
      writeExn := fun p => if p = ("/w/b.py").data then some (("disk full").data) else none
      llm := Except.ok respC3 }

/-- Environment whose model response has no fence delimiter. -/
def envC4 : Env :=
  { env0 with llm := Except.ok (("just a plain readme text").data) }

/-- Environment whose registration yields a remote (S3) resource. -/
def envC8 : Env :=
  { env0 with register := fun _ => RegResult.ok ⟨("S3").data, ("kept/path.py").data⟩ }

/-- A one-block response followed by trailing prose. -/
def respC9 : List Char := ("x.py\n```py\nA = 1\n```\nthe end").data

/-- Environment returning `respC9`. -/
def envC9 : Env := { env0 with llm := Except.ok respC9 }

/-- A well-formed block used by parser witnesses. -/
def blkA : Block := ⟨("ma<in.py").data, ("python").data, ("print(1)\n").data⟩

/-- A second well-formed block used by parser witnesses. -/
def blkB : Block := ⟨("util.js").data, ("js").data, ("let x = 2;\n").data⟩

/-! ## Lemmas about the fence primitives -/

theorem stripFence_some {t r : List Char} (h : stripFence t = some r) :
    t = fenceL ++ r := by
  unfold stripFence at h
  split at h
  · rename_i hp
    obtain ⟨u, hu⟩ := List.isPrefixOf_iff_prefix.mp hp
    injection h with h
    subst h
    rw [← hu]
    have : fenceL.length = 3 := rfl
    rw [← this, List.drop_left]
  · exact absurd h (by simp)

theorem stripFence_append (X : List Char) : stripFence (fenceL ++ X) = some X := by
  unfold stripFence
  rw [if_pos (List.isPrefixOf_iff_prefix.mpr (List.prefix_append _ _))]
  simp [fenceL]

theorem stripFence_eq_none {t : List Char} :
    stripFence t = none ↔ fenceL.isPrefixOf t = false := by
  unfold stripFence
  constructor
  · intro h
    by_contra hb
    rw [if_pos (by simpa using hb)] at h
    exact Option.noConfusion h
  · intro h
    rw [if_neg (by simp [h])]

theorem stripFence_head_ne {c : Char} {cs : List Char} (h : ¬c = btick) :
    stripFence (c :: cs) = none := by
  rw [stripFence_eq_none]
  by_contra hb
  have hb2 : fenceL.isPrefixOf (c :: cs) = true := by simpa using hb
  obtain ⟨u, hu⟩ := List.isPrefixOf_iff_prefix.mp hb2
  rw [show fenceL = btick :: [btick, btick] from rfl, List.cons_append] at hu
  injection hu with h1 _
  exact h h1.symm

theorem findClose_shape :
    ∀ {t c r : List Char}, findClose t = some (c, r) → t = c ++ (fenceL ++ r) ∧ c ≠ [] := by
  intro t
  induction t with
  | nil => intro c r h; exact absurd h (by simp [findClose])
  | cons a cs ih =>
    intro c r h
    unfold findClose at h
    split at h
    · rename_i rest heq
      injection h with h
      obtain ⟨h1, h2⟩ := Prod.mk.injEq .. ▸ h
      subst h1; subst h2
      exact ⟨by rw [stripFence_some heq]; rfl, by simp⟩
    · split at h
      · rename_i content rest heq
        injection h with h
        obtain ⟨h1, h2⟩ := Prod.mk.injEq .. ▸ h
        subst h1; subst h2
        obtain ⟨hcs, _⟩ := ih heq
        exact ⟨by rw [hcs]; rfl, by simp⟩
      · exact absurd h (by simp)

/-! ## Shape, termination and step lemmas of the scanner -/

theorem matchAt_shape {s f c r : List Char} (h : matchAtSuffix s = some (f, c, r)) :
    ∃ lang, s = f ++ '\n' :: (fenceL ++ (lang ++ '\n' :: (c ++ (fenceL ++ r)))) := by
  unfold matchAtSuffix at h
  split at h
  case _ r2 heq1 =>
    split at h
    · exact absurd h (by simp)
    · split at h
      case _ r3 heq2 =>
        split at h
        case _ r5 heq3 =>
          split at h
          · exact absurd h (by simp)
          · split at h
            case _ content rest heq4 =>
              injection h with h
              rw [Prod.mk.injEq] at h
              obtain ⟨h1, h2⟩ := h
              rw [Prod.mk.injEq] at h2
              obtain ⟨h2, h3⟩ := h2
              subst h1; subst h2; subst h3
              refine ⟨List.takeWhile nonWs r3, ?_⟩
              have hs : List.takeWhile nonWs s ++ List.dropWhile nonWs s = s :=
                List.takeWhile_append_dropWhile ..
              have hr3 : List.takeWhile nonWs r3 ++ List.dropWhile nonWs r3 = r3 :=
                List.takeWhile_append_dropWhile ..
              obtain ⟨hr5, -⟩ := findClose_shape heq4
              conv_lhs => rw [← hs, heq1]
              rw [stripFence_some heq2]
              conv_lhs => rw [← hr3, heq3]
              rw [hr5]
            case _ => exact absurd h (by simp)
        case _ => exact absurd h (by simp)
      case _ => exact absurd h (by simp)
  case _ => exact absurd h (by simp)

theorem matchAt_rest_length {s f c r : List Char}
    (h : matchAtSuffix s = some (f, c, r)) : r.length < s.length := by
  obtain ⟨lang, hs⟩ := matchAt_shape h
  rw [hs]
  simp [fenceL]
  omega

theorem finditerF_succ (n : Nat) (s : List Char) :
    finditerF (n + 1) s =
      match matchAtSuffix s with
      | some (f, c, rest) => (f, c) :: finditerF n rest
      | none =>
        match s with
        | [] => []
        | _ :: cs => finditerF n cs := rfl

theorem finditerF_congr :
    ∀ {n : Nat} {m : Nat} {l : List Char}, l.length < n → l.length < m →
      finditerF n l = finditerF m l := by
  intro n
  induction n with
  | zero => intro m l h1 _; omega
  | succ n ih =>
    intro m l h1 h2
    cases m with
    | zero => omega
    | succ m =>
      rw [finditerF_succ n, finditerF_succ m]
      cases hm : matchAtSuffix l with
      | some v =>
        obtain ⟨f, c, rest⟩ := v
        have hlen := matchAt_rest_length hm
        show (f, c) :: finditerF n rest = (f, c) :: finditerF m rest
        exact congrArg _ (ih (by omega) (by omega))
      | none =>
        cases l with
        | nil => rfl
        | cons a cs =>
          show finditerF n cs = finditerF m cs
          have : (a :: cs).length = cs.length + 1 := rfl
          exact ih (by omega) (by omega)

theorem parseBlocks_some {s f c rest : List Char}
    (h : matchAtSuffix s = some (f, c, rest)) :
    parseBlocks s = (f, c) :: parseBlocks rest := by
  have hlen := matchAt_rest_length h
  show finditerF (s.length + 1) s = _
  rw [finditerF_succ, h]
  show (f, c) :: finditerF s.length rest = (f, c) :: parseBlocks rest
  exact congrArg _ (finditerF_congr (by omega) (by omega))

theorem parseBlocks_none_cons {a : Char} {cs : List Char}
    (h : matchAtSuffix (a :: cs) = none) :
    parseBlocks (a :: cs) = parseBlocks cs := by
  show finditerF ((a :: cs).length + 1) (a :: cs) = _
  have he : (a :: cs).length + 1 = cs.length + 1 + 1 := by simp
  rw [he, finditerF_succ, h]
  rfl

theorem parseBlocks_nil : parseBlocks [] = [] := rfl

/-! ## Lemmas about the README split -/

theorem splitFenceF_spec :
    ∀ {n : Nat} {l : List Char}, l.length < n →
      splitFenceF n l ≠ [] ∧ (splitFenceF n l).headD [] = beforeFence l := by
  intro n
  induction n with
  | zero => intro l h; omega
  | succ n ih =>
    intro l h
    cases l with
    | nil => exact ⟨by simp [splitFenceF], by simp [splitFenceF, beforeFence]⟩
    | cons c cs =>
      show splitFenceF (n + 1) (c :: cs) ≠ [] ∧ _
      unfold splitFenceF
      cases hs : stripFence (c :: cs) with
      | some rest =>
        have hpre : fenceL.isPrefixOf (c :: cs) = true := by
          cases hpf : fenceL.isPrefixOf (c :: cs) with
          | true => rfl
          | false =>
            rw [stripFence_eq_none.mpr hpf] at hs
            exact Option.noConfusion hs
        refine ⟨by simp, ?_⟩
        simp only [List.headD]
        rw [beforeFence, if_pos hpre]
      | none =>
        have hpre : fenceL.isPrefixOf (c :: cs) = false := stripFence_eq_none.mp hs
        have hcs : cs.length < n := by simp at h; omega
        obtain ⟨hne, hhd⟩ := ih hcs
        cases hsp : splitFenceF n cs with
        | nil => exact absurd hsp hne
        | cons hh tt =>
          refine ⟨by simp, ?_⟩
          simp only [List.headD]
          rw [beforeFence, if_neg (by simp [hpre])]
          rw [hsp] at hhd
          simp only [List.headD] at hhd
          rw [hhd]

theorem splitFence_ne_nil (l : List Char) : splitFence l ≠ [] :=
  (splitFenceF_spec (by omega)).1

theorem splitFence_headD (l : List Char) : (splitFence l).headD [] = beforeFence l :=
  (splitFenceF_spec (by omega)).2

theorem splitFence_len_pos (l : List Char) : 0 < (splitFence l).length :=
  List.length_pos.mpr (splitFence_ne_nil l)

/-! ## The anchored match on a well-formed block -/

theorem takeWhile_all_cons {p : Char → Bool} {l : List Char} {x : Char} (t : List Char)
    (hl : ∀ c ∈ l, p c = true) (hx : p x = false) :
    List.takeWhile p (l ++ x :: t) = l ∧ List.dropWhile p (l ++ x :: t) = x :: t := by
  induction l with
  | nil => simp [List.takeWhile_cons, List.dropWhile_cons, hx]
  | cons a as ih =>
    have ha : p a = true := hl a (List.mem_cons_self a as)
    obtain ⟨ih1, ih2⟩ := ih (fun c hc => hl c (List.mem_cons_of_mem a hc))
    simp only [List.cons_append, List.takeWhile_cons, List.dropWhile_cons, ha]
    simp [ih1, ih2]

theorem fence_pre_transfer {l : List Char} (hl : l ≠ []) (r : List Char) :
    fenceL.isPrefixOf (l ++ (fenceL ++ r)) = fenceL.isPrefixOf (l ++ [btick, btick]) := by
  match l with
  | [a] => simp [fenceL, List.isPrefixOf]
  | [a, b] => simp [fenceL, List.isPrefixOf]
  | a :: b :: c :: t => simp [fenceL, List.isPrefixOf]

theorem findClose_append :
    ∀ {content : List Char}, content ≠ [] →
      hasFence (content.drop 1 ++ [btick, btick]) = false → ∀ r : List Char,
      findClose (content ++ (fenceL ++ r)) = some (content, r) := by
  intro content
  induction content with
  | nil => intro h; exact absurd rfl h
  | cons a l ih =>
    intro _ hnf r
    cases l with
    | nil =>
      show findClose (a :: (fenceL ++ r)) = some ([a], r)
      unfold findClose
      rw [stripFence_append]
    | cons b l2 =>
      simp only [List.drop_succ_cons, List.drop_zero] at hnf
      have hnf2 : (fenceL.isPrefixOf (b :: (l2 ++ [btick, btick])) ||
          hasFence (l2 ++ [btick, btick])) = false := hnf
      rw [Bool.or_eq_false_iff] at hnf2
      obtain ⟨h1, h2⟩ := hnf2
      have hfc := ih (by simp) (by simpa using h2) r
      show findClose (a :: (b :: l2 ++ (fenceL ++ r))) = _
      unfold findClose
      have hsf : stripFence (b :: l2 ++ (fenceL ++ r)) = none := by
        rw [stripFence_eq_none]
        rw [show b :: l2 ++ (fenceL ++ r) = (b :: l2) ++ (fenceL ++ r) from rfl]
        rw [fence_pre_transfer (by simp) r]
        exact h1
      rw [hsf]
      rw [show b :: l2 ++ (fenceL ++ r) = (b :: l2) ++ (fenceL ++ r) from rfl, hfc]

theorem matchAt_block {b : Block} (hb : blockOk b = true) (t : List Char) :
    matchAtSuffix (renderBlock b ++ t) = some (b.fname, b.content, t) := by
  simp only [blockOk, Bool.and_eq_true, Bool.not_eq_true', List.all_eq_true] at hb
  obtain ⟨⟨⟨⟨⟨⟨hf1, hfw⟩, hfp⟩, hl1⟩, hlw⟩, hc1⟩, hcf⟩ := hb
  have hrb : renderBlock b ++ t =
      b.fname ++ '\n' :: (fenceL ++ (b.lang ++ '\n' :: (b.content ++ (fenceL ++ t)))) := by
    simp [renderBlock]
  have hnl : nonWs '\n' = false := by decide
  obtain ⟨htake, hdrop⟩ :=
    takeWhile_all_cons (t := fenceL ++ (b.lang ++ '\n' :: (b.content ++ (fenceL ++ t))))
      hfw hnl
  obtain ⟨htake2, hdrop2⟩ :=
    takeWhile_all_cons (t := b.content ++ (fenceL ++ t)) hlw hnl
  have hcne : b.content ≠ [] := by
    intro hx
    rw [hx] at hc1
    exact absurd hc1 (by simp)
  have hfc := findClose_append hcne hcf t
  rw [hrb]
  unfold matchAtSuffix
  simp [hdrop, htake, stripFence_append, hdrop2, htake2, hfc, hf1, hl1]

/-! ## No match can start inside a separator -/

theorem sepOk_tail {c : Char} {l : List Char} (h : sepOk (c :: l) = true) :
    sepOk l = true := by
  cases l with
  | nil => rfl
  | cons c2 rest =>
    have h2 : (!(c = btick) && sepOk (c2 :: rest)) = true := h
    exact (Bool.and_eq_true .. ▸ h2).2

theorem sepOk_ne_btick {u : List Char} (h : sepOk u = true) : ∀ c ∈ u, ¬c = btick := by
  induction u with
  | nil => simp
  | cons c cs ih =>
    intro x hx
    rcases List.mem_cons.mp hx with hx | hx
    · subst hx
      cases cs with
      | nil =>
        have hc : isPyWs x = true := h
        intro hb
        rw [hb] at hc
        exact absurd hc (by decide)
      | cons c2 rest =>
        have h2 : (!(x = btick) && sepOk (c2 :: rest)) = true := h
        have := (Bool.and_eq_true .. ▸ h2).1
        simpa using this
    · exact ih (sepOk_tail h) x hx

theorem dropWhile_sep {u : List Char} (hOk : sepOk u = true) (hne : u ≠ [])
    (X : List Char) :
    List.dropWhile nonWs (u ++ X) = List.dropWhile nonWs u ++ X ∧
      List.dropWhile nonWs u ≠ [] := by
  induction u with
  | nil => exact absurd rfl hne
  | cons c cs ih =>
    cases cs with
    | nil =>
      have hc : isPyWs c = true := hOk
      have hcn : nonWs c = false := by simp [nonWs, hc]
      constructor
      · show List.dropWhile nonWs (c :: X) = List.dropWhile nonWs [c] ++ X
        rw [List.dropWhile_cons, List.dropWhile_cons]
        simp [hcn]
      · rw [List.dropWhile_cons]
        simp [hcn]
    | cons c2 rest =>
      by_cases hw : isPyWs c
      · have hcn : nonWs c = false := by simp [nonWs, hw]
        constructor
        · show List.dropWhile nonWs (c :: (c2 :: rest ++ X)) = _
          rw [List.dropWhile_cons, List.dropWhile_cons]
          simp [hcn]
        · rw [List.dropWhile_cons]
          simp [hcn]
      · have hcn : nonWs c = true := by simp [nonWs, hw]
        obtain ⟨ih1, ih2⟩ := ih (sepOk_tail hOk) (by simp)
        constructor
        · show List.dropWhile nonWs (c :: (c2 :: rest ++ X)) = _
          rw [List.dropWhile_cons, List.dropWhile_cons]
          simp only [hcn, if_true]
          exact ih1
        · rw [List.dropWhile_cons]
          simp only [hcn, if_true]
          exact ih2

theorem matchAt_sep_none {u : List Char} (hOk : sepOk u = true) (hne : u ≠ [])
    {X : List Char} (hX : fenceL.isPrefixOf X = false) :
    matchAtSuffix (u ++ X) = none := by
  obtain ⟨hd, hdne⟩ := dropWhile_sep hOk hne X
  have hmem : ∀ c ∈ List.dropWhile nonWs u, c ∈ u :=
    fun c hc => (List.dropWhile_sublist nonWs).subset hc
  unfold matchAtSuffix
  rw [hd]
  cases hdu : List.dropWhile nonWs u with
  | nil => exact absurd hdu hdne
  | cons dh dt =>
    by_cases hdh : dh = '\n'
    · subst hdh
      have hsf : stripFence (dt ++ X) = none := by
        cases dt with
        | nil => exact stripFence_eq_none.mpr hX
        | cons e et =>
          refine stripFence_head_ne ?_
          exact sepOk_ne_btick hOk e (hmem e (by rw [hdu]; simp))
      simp [hsf]
    · have : (dh :: dt) ++ X = dh :: (dt ++ X) := rfl
      rw [this]
      split
      · rename_i r2 heq
        injection heq with h1 _
        exact absurd h1 hdh
      · rfl

theorem parse_sep_skip {u : List Char} (hOk : sepOk u = true)
    {X : List Char} (hX : fenceL.isPrefixOf X = false) :
    parseBlocks (u ++ X) = parseBlocks X := by
  induction u with
  | nil => rfl
  | cons c cs ih =>
    have hnone := matchAt_sep_none hOk (by simp) hX
    rw [show (c :: cs) ++ X = c :: (cs ++ X) from rfl] at hnone
    rw [show (c :: cs) ++ X = c :: (cs ++ X) from rfl]
    rw [parseBlocks_none_cons hnone]
    exact ih (sepOk_tail hOk)

theorem fence_notPre_block {b : Block} (hb : blockOk b = true) (t : List Char) :
    fenceL.isPrefixOf (renderBlock b ++ t) = false := by
  simp only [blockOk, Bool.and_eq_true, Bool.not_eq_true', List.all_eq_true] at hb
  obtain ⟨⟨⟨⟨⟨⟨hf1, _⟩, hfp⟩, _⟩, _⟩, _⟩, _⟩ := hb
  have hrb : renderBlock b ++ t =
      b.fname ++ '\n' :: (fenceL ++ (b.lang ++ '\n' :: (b.content ++ (fenceL ++ t)))) := by
    simp [renderBlock]
  rw [hrb]
  match hf : b.fname, hf1 with
  | [a], _ =>
    simp [fenceL, List.isPrefixOf]
    intro _
    decide
  | [a, b2], _ =>
    simp [fenceL, List.isPrefixOf]
    intro _ _
    decide
  | a :: b2 :: c3 :: f2, _ =>
    rw [hf] at hfp
    simpa [fenceL, List.isPrefixOf] using hfp

/-! ## The main parser correctness theorem on rendered responses -/

theorem matchAt_noBT {s : List Char}
    (h : s.all (fun c => !(c = btick)) = true) : matchAtSuffix s = none := by
  cases hm : matchAtSuffix s with
  | none => rfl
  | some v =>
    obtain ⟨f, c, r⟩ := v
    obtain ⟨lang, hs⟩ := matchAt_shape hm
    exfalso
    have hmem : btick ∈ s := by
      rw [hs, show fenceL = btick :: [btick, btick] from rfl]
      simp
    have := List.all_eq_true.mp h btick hmem
    simp at this

theorem parse_noBT {s : List Char}
    (h : s.all (fun c => !(c = btick)) = true) : parseBlocks s = [] := by
  induction s with
  | nil => rfl
  | cons c cs ih =>
    rw [parseBlocks_none_cons (matchAt_noBT h)]
    exact ih (by simp only [List.all_cons, Bool.and_eq_true] at h; exact h.2)

theorem parse_render :
    ∀ (l : List (List Char × Block)) (fin : List Char),
      (∀ p ∈ l, sepOk p.1 = true ∧ blockOk p.2 = true) →
      fin.all (fun c => !(c = btick)) = true →
      parseBlocks (render l fin) = l.map (fun p => (p.2.fname, p.2.content)) := by
  intro l
  induction l with
  | nil => intro fin _ hfin; exact parse_noBT hfin
  | cons p rest ih =>
    intro fin hl hfin
    obtain ⟨sep, b⟩ := p
    obtain ⟨hsep, hb⟩ := hl (sep, b) (List.mem_cons_self ..)
    show parseBlocks (sep ++ (renderBlock b ++ render rest fin)) = _
    rw [parse_sep_skip hsep (fence_notPre_block hb _)]
    rw [parseBlocks_some (matchAt_block hb _)]
    rw [ih fin (fun q hq => hl q (List.mem_cons_of_mem _ hq)) hfin]
    rfl

/-! ## Lemmas about the persistence routine and the orchestrator -/

theorem errTok_not_pre_okSave : errTok.isPrefixOf okSave = false := by decide

theorem errTok_pre_append {a : List Char} (m : List Char)
    (h : errTok.isPrefixOf a = true) : errTok.isPrefixOf (a ++ m) = true :=
  List.isPrefixOf_iff_prefix.mpr
    ((List.isPrefixOf_iff_prefix.mp h).trans (List.prefix_append a m))

theorem errTok_pre_errSave (m : List Char) :
    errTok.isPrefixOf (errSaveMsg ++ m) = true :=
  errTok_pre_append m (by decide)

theorem errTok_pre_errGen (m : List Char) :
    errTok.isPrefixOf (errGenMsg ++ m) = true :=
  errTok_pre_append m (by decide)

theorem writeCodes_cases (env : Env) (content fname : List Char) :
    (writeCodes env content fname).1 = Except.error nameErrorMsg ∨
      (writeCodes env content fname).1 = Except.ok okSave ∨
      ∃ m, (writeCodes env content fname).1 = Except.ok (errSaveMsg ++ m) := by
  cases hc : env.connectExn with
  | some m => exact Or.inl (by simp [writeCodes, hc])
  | none =>
    cases hw : env.writeExn (finalPath env.rootDir env.cwd fname) with
    | some m => exact Or.inr (Or.inr ⟨m, by simp [writeCodes, hc, hw]⟩)
    | none =>
      cases hr : env.register fname with
      | exn m => exact Or.inr (Or.inr ⟨m, by simp [writeCodes, hc, hw, hr]⟩)
      | noEntry => exact Or.inr (Or.inl (by simp [writeCodes, hc, hw, hr]))
      | ok r =>
        cases hcm : env.commitExn fname with
        | some m => exact Or.inr (Or.inr ⟨m, by simp [writeCodes, hc, hw, hr, hcm]⟩)
        | none =>
          by_cases hs : r.storage_type = ("S3").data
          · cases hu : env.uploadExn r.path with
            | some m =>
              exact Or.inr (Or.inr ⟨m, by simp [writeCodes, hc, hw, hr, hcm, hs, hu]⟩)
            | none => exact Or.inr (Or.inl (by simp [writeCodes, hc, hw, hr, hcm, hs, hu]))
          · exact Or.inr (Or.inl (by simp [writeCodes, hc, hw, hr, hcm, hs]))

theorem writeCodes_envOk {env : Env} (h : EnvOk env) (content fname : List Char) :
    (writeCodes env content fname).1 = Except.ok okSave ∧
      writesOf (writeCodes env content fname).2 =
        [(finalPath env.rootDir env.cwd fname, content)] := by
  obtain ⟨h1, h2, h3, h4, h5⟩ := h
  cases hr : env.register fname with
  | exn m => exact absurd hr (h3 fname m)
  | noEntry =>
    exact ⟨by simp [writeCodes, h1, h2, hr], by simp [writeCodes, h1, h2, hr, writesOf]⟩
  | ok r =>
    by_cases hs : r.storage_type = ("S3").data
    · constructor
      · simp [writeCodes, h1, h2, h4, h5, hr, hs]
      · simp [writeCodes, h1, h2, h4, h5, hr, hs, writesOf]
    · constructor
      · simp [writeCodes, h1, h2, h4, hr, hs]
      · simp [writeCodes, h1, h2, h4, hr, hs, writesOf]

theorem writesOf_append (a b : List Eff) :
    writesOf (a ++ b) = writesOf a ++ writesOf b :=
  List.filterMap_append ..

theorem uploadsOf_append (a b : List Eff) :
    uploadsOf (a ++ b) = uploadsOf a ++ uploadsOf b :=
  List.filterMap_append ..

theorem processRecords_cons (env : Env) (g code : List Char)
    (rest : List (List Char × List Char)) :
    processRecords env ((g, code) :: rest) =
      (if (pyStrip (sanitize g)).isEmpty then processRecords env rest
        else
          match writeCodes env code (sanitize g) with
          | (Except.error m, tr) => (LoopOut.raised m, tr)
          | (Except.ok s, tr) =>
            if errTok.isPrefixOf s then (LoopOut.early s, tr)
            else
              match processRecords env rest with
              | (o, tr2) => (o, tr ++ tr2)) := rfl

theorem recsTrace_cons (env : Env) (r : List Char × List Char)
    (rest : List (List Char × List Char)) :
    recsTrace env (r :: rest) = recTrace env r ++ recsTrace env rest := rfl

theorem processRecords_ok_all {env : Env} :
    ∀ {rs : List (List Char × List Char)}, (∀ r ∈ rs, okRecord env r) →
      processRecords env rs = (LoopOut.done, recsTrace env rs) := by
  intro rs
  induction rs with
  | nil => intro _; rfl
  | cons r rest ih =>
    intro h
    obtain ⟨g, code⟩ := r
    have hr := h (g, code) (List.mem_cons_self ..)
    have hrest := ih (fun q hq => h q (List.mem_cons_of_mem _ hq))
    rw [processRecords_cons, recsTrace_cons]
    by_cases hskip : (pyStrip (sanitize g)).isEmpty = true
    · rw [if_pos hskip, hrest]
      simp [recTrace, hskip]
    · rcases hr with hx | hok
      · exact absurd hx hskip
      · rw [if_neg hskip]
        cases hwc : writeCodes env code (sanitize g) with
        | mk res tr =>
          rw [hwc] at hok
          simp only at hok
          subst hok
          simp only [errTok_not_pre_okSave, Bool.false_eq_true, if_false, hrest]
          simp [recTrace, hskip, hwc]

theorem processRecords_append_ok {env : Env} {pre : List (List Char × List Char)}
    (h : ∀ r ∈ pre, okRecord env r) (rest : List (List Char × List Char)) :
    processRecords env (pre ++ rest) =
      ((processRecords env rest).1, recsTrace env pre ++ (processRecords env rest).2) := by
  induction pre with
  | nil => simp [recsTrace]
  | cons r pre2 ih =>
    obtain ⟨g, code⟩ := r
    have hr := h (g, code) (List.mem_cons_self ..)
    have hpre2 := ih (fun q hq => h q (List.mem_cons_of_mem _ hq))
    rw [show ((g, code) :: pre2) ++ rest = (g, code) :: (pre2 ++ rest) from rfl]
    rw [processRecords_cons, recsTrace_cons]
    by_cases hskip : (pyStrip (sanitize g)).isEmpty = true
    · rw [if_pos hskip, hpre2]
      simp [recTrace, hskip]
    · rcases hr with hx | hok
      · exact absurd hx hskip
      · rw [if_neg hskip]
        cases hwc : writeCodes env code (sanitize g) with
        | mk res tr =>
          rw [hwc] at hok
          simp only at hok
          subst hok
          simp only [errTok_not_pre_okSave, Bool.false_eq_true, if_false, hpre2]
          simp [recTrace, hskip, hwc]

theorem execute_eq (env : Env) :
    execute env =
      (match env.llm with
        | Except.error m => (errGenMsg ++ m, [])
        | Except.ok content =>
          match processRecords env (parseBlocks content) with
          | (LoopOut.early s, tr) => (s, tr)
          | (LoopOut.raised m, tr) => (errGenMsg ++ m, tr)
          | (LoopOut.done, tr) =>
            if 0 < (splitFence content).length then
              match writeCodes env ((splitFence content).headD [])
                  (("README.md").data) with
              | (Except.error m, tr2) => (errGenMsg ++ m, tr ++ tr2)
              | (Except.ok s, tr2) =>
                if errTok.isPrefixOf s then (s, tr ++ tr2)
                else (successMsg, tr ++ tr2)
            else (successMsg, tr)) := rfl

theorem successWrites_cons (env : Env) (r : List Char × List Char)
    (rest : List (List Char × List Char)) :
    successWrites env (r :: rest) =
      (if (pyStrip (sanitize r.1)).isEmpty then []
        else [(finalPath env.rootDir env.cwd (sanitize r.1), r.2)]) ++
        successWrites env rest := rfl

theorem recsTrace_writes {env : Env} (h : EnvOk env)
    (rs : List (List Char × List Char)) :
    writesOf (recsTrace env rs) = successWrites env rs := by
  induction rs with
  | nil => rfl
  | cons r rest ih =>
    rw [recsTrace_cons, writesOf_append, ih, successWrites_cons]
    by_cases hskip : (pyStrip (sanitize r.1)).isEmpty = true
    · simp [recTrace, hskip, writesOf]
    · simp only [recTrace, hskip, Bool.false_eq_true, if_false]
      rw [(writeCodes_envOk h r.2 (sanitize r.1)).2]

theorem okRecord_envOk {env : Env} (h : EnvOk env) (r : List Char × List Char) :
    okRecord env r :=
  Or.inr (writeCodes_envOk h r.2 (sanitize r.1)).1

theorem execute_envOk {env : Env} {resp : List Char}
    (hllm : env.llm = Except.ok resp) (h : EnvOk env) :
    (execute env).1 = successMsg ∧
      writesOf (execute env).2 =
        successWrites env (parseBlocks resp) ++
          [(finalPath env.rootDir env.cwd (("README.md").data), beforeFence resp)] := by
  have hpr := @processRecords_ok_all env (parseBlocks resp)
    (fun r _ => okRecord_envOk h r)
  have hwr := writeCodes_envOk h ((splitFence resp).headD []) (("README.md").data)
  cases hwc : writeCodes env ((splitFence resp).headD []) (("README.md").data) with
  | mk res tr2 =>
    rw [hwc] at hwr
    simp only at hwr
    obtain ⟨hres, hw2⟩ := hwr
    subst hres
    rw [execute_eq]
    simp only [hllm, hpr, hwc]
    simp [if_pos (splitFence_len_pos resp), errTok_not_pre_okSave,
      writesOf_append, recsTrace_writes h, hw2, splitFence_headD]
    rw [← List.headD_eq_head?_getD, splitFence_headD]

theorem processRecords_outcomes (env : Env) :
    ∀ rs : List (List Char × List Char),
      (processRecords env rs).1 = LoopOut.done ∨
      (∃ s, (processRecords env rs).1 = LoopOut.early s ∧
        errTok.isPrefixOf s = true) ∨
      (∃ m, (processRecords env rs).1 = LoopOut.raised m) := by
  intro rs
  induction rs with
  | nil => exact Or.inl rfl
  | cons r rest ih =>
    obtain ⟨g, code⟩ := r
    rw [processRecords_cons]
    by_cases hskip : (pyStrip (sanitize g)).isEmpty = true
    · rw [if_pos hskip]
      exact ih
    · rw [if_neg hskip]
      cases hwc : writeCodes env code (sanitize g) with
      | mk res tr =>
        cases res with
        | error m => exact Or.inr (Or.inr ⟨m, rfl⟩)
        | ok s =>
          by_cases he : errTok.isPrefixOf s = true
          · exact Or.inr (Or.inl ⟨s, by simp [he], he⟩)
          · have hred :
                (match (Except.ok s, tr) with
                  | (Except.error m, tr) => (LoopOut.raised m, tr)
                  | (Except.ok s, tr) =>
                    if errTok.isPrefixOf s then (LoopOut.early s, tr)
                    else
                      match processRecords env rest with
                      | (o, tr2) => (o, tr ++ tr2)).1 =
                  (processRecords env rest).1 := by
              cases hq : processRecords env rest with
              | mk o tr2 => simp [he, hq]
            rw [hred]
            exact ih

/-! ## Remaining helper lemmas for the fence-free case -/

theorem hasFence_fence_mid (u v : List Char) : hasFence (u ++ (fenceL ++ v)) = true := by
  induction u with
  | nil =>
    have hp : fenceL.isPrefixOf (fenceL ++ v) = true :=
      List.isPrefixOf_iff_prefix.mpr (List.prefix_append ..)
    show (fenceL.isPrefixOf (fenceL ++ v) || hasFence ([btick, btick] ++ v)) = true
    rw [hp]
    rfl
  | cons c u2 ih =>
    show (fenceL.isPrefixOf (c :: (u2 ++ (fenceL ++ v))) ||
      hasFence (u2 ++ (fenceL ++ v))) = true
    rw [ih]
    simp

theorem hasFence_tail {c : Char} {cs : List Char} (h : hasFence (c :: cs) = false) :
    hasFence cs = false := by
  have h2 : (fenceL.isPrefixOf (c :: cs) || hasFence cs) = false := h
  exact (Bool.or_eq_false_iff.mp h2).2

theorem matchAt_noFence {s : List Char} (h : hasFence s = false) :
    matchAtSuffix s = none := by
  cases hm : matchAtSuffix s with
  | none => rfl
  | some v =>
    obtain ⟨f, c, r⟩ := v
    obtain ⟨lang, hs⟩ := matchAt_shape hm
    exfalso
    have hs2 : s = (f ++ ['\n']) ++ (fenceL ++ (lang ++ '\n' :: (c ++ (fenceL ++ r)))) := by
      rw [hs]; simp
    rw [hs2, hasFence_fence_mid] at h
    exact Bool.noConfusion h

theorem parse_noFence {s : List Char} (h : hasFence s = false) : parseBlocks s = [] := by
  induction s with
  | nil => rfl
  | cons c cs ih =>
    rw [parseBlocks_none_cons (matchAt_noFence h)]
    exact ih (hasFence_tail h)

theorem beforeFence_noFence {s : List Char} (h : hasFence s = false) :
    beforeFence s = s := by
  induction s with
  | nil => rfl
  | cons c cs ih =>
    have h2 : (fenceL.isPrefixOf (c :: cs) || hasFence cs) = false := h
    obtain ⟨h3, h4⟩ := Bool.or_eq_false_iff.mp h2
    rw [beforeFence, if_neg (by simp [h3]), ih h4]

theorem sepOk_append_ws {prose : List Char}
    (hp : prose.all (fun c => !(c = btick)) = true) {w : Char}
    (hw : isPyWs w = true) : sepOk (prose ++ [w]) = true := by
  induction prose with
  | nil => exact hw
  | cons c cs ih =>
    simp only [List.all_cons, Bool.and_eq_true] at hp
    have ihs := ih hp.2
    cases hq : cs ++ [w] with
    | nil => exact absurd hq (by simp)
    | cons c2 rest =>
      show sepOk (c :: (cs ++ [w])) = true
      rw [hq]
      show (!(c = btick) && sepOk (c2 :: rest)) = true
      rw [← hq, ihs]
      simpa using hp.1

theorem sep_suffix_append (x : List Char) :
    List.isSuffixOf ['/'] (x ++ ['/']) = true := by
  simp [List.isSuffixOf, List.isPrefixOf, List.reverse_append]

/-! ## Step equations of the orchestrator, by outcome -/

theorem execute_early {env : Env} {content : List Char}
    (hllm : env.llm = Except.ok content) {s : List Char} {tr : List Eff}
    (hpr : processRecords env (parseBlocks content) = (LoopOut.early s, tr)) :
    execute env = (s, tr) := by
  rw [execute_eq]
  simp only [hllm, hpr]

theorem execute_raised {env : Env} {content : List Char}
    (hllm : env.llm = Except.ok content) {m : List Char} {tr : List Eff}
    (hpr : processRecords env (parseBlocks content) = (LoopOut.raised m, tr)) :
    execute env = (errGenMsg ++ m, tr) := by
  rw [execute_eq]
  simp only [hllm, hpr]

theorem execute_done_err {env : Env} {content : List Char}
    (hllm : env.llm = Except.ok content) {tr : List Eff}
    (hpr : processRecords env (parseBlocks content) = (LoopOut.done, tr))
    {m : List Char} {tr2 : List Eff}
    (hwc : writeCodes env ((splitFence content).headD []) (("README.md").data) =
      (Except.error m, tr2)) :
    execute env = (errGenMsg ++ m, tr ++ tr2) := by
  rw [execute_eq]
  simp only [hllm, hpr, hwc]
  rw [if_pos (splitFence_len_pos content)]

theorem execute_done_ok {env : Env} {content : List Char}
    (hllm : env.llm = Except.ok content) {tr : List Eff}
    (hpr : processRecords env (parseBlocks content) = (LoopOut.done, tr))
    {s : List Char} {tr2 : List Eff}
    (hwc : writeCodes env ((splitFence content).headD []) (("README.md").data) =
      (Except.ok s, tr2)) :
    execute env =
      (if errTok.isPrefixOf s then (s, tr ++ tr2) else (successMsg, tr ++ tr2)) := by
  rw [execute_eq]
  simp only [hllm, hpr, hwc]
  rw [if_pos (splitFence_len_pos content)]

/-! ## The claims -/

/-- C1: for every model response containing N well-formed blocks (a
whitespace-free filename token on the line immediately before an opening
fence with a language tag, then content, then a closing fence), the
parsing step of `_execute` yields exactly N file records, in the order
the blocks appear, and the filename of each record equals the captured token
with every occurrence of the characters removed by the sanitization.
Well-formedness is the `sepOk`/`blockOk` conditions: each filename
line is separated from the preceding text, the surrounding
prose contains no fence delimiter, and the content contains no early
closing fence (the known parser ambiguity acknowledged by the spec). -/
theorem parser_wellformed_blocks (l : List (List Char × Block)) (fin : List Char)
    (h : ∀ p ∈ l, sepOk p.1 = true ∧ blockOk p.2 = true)
    (hfin : fin.all (fun c => !(c = btick)) = true) :
    parsedRecords (render l fin) =
      l.map (fun p => (sanitize p.2.fname, p.2.content)) := by
  unfold parsedRecords
  rw [parse_render l fin h hfin, List.map_map]
  rfl

/-- Witness for C1 at a concrete two-block response: the forbidden
character in the first filename is removed, both records appear in
order. -/
theorem parser_wellformed_blocks_witness :
    parsedRecords (render [((("intro ").data), blkA), ([], blkB)] (("\ntail").data)) =
      [((("main.py").data), ("print(1)\n").data),
        ((("util.js").data), ("let x = 2;\n").data)] := by
  rw [parser_wellformed_blocks _ _ (by decide) (by decide)]
  decide

/-- C2 (code bug): when `connect_db()` (or the session construction)
raises, the `except` handler of `write_codes_to_file` executes
`session.close()` with the local `session` unbound, so an
`UnboundLocalError` escapes the function instead of the promised
`"Error saving codes to file: ..."` string, and no session close
happens.  The model evaluates the failing input: the result is an
escaped exception (`Except.error`) with an empty effect trace. -/
theorem write_codes_connect_failure_raises :
    writeCodes envC2 (("print(1)").data) (("a.py").data) =
      (Except.error nameErrorMsg, []) := rfl

/-- C3: when the k-th record is the first whose persist call returns an
`"Error..."` string, `_execute` returns that exact string; the trace is
exactly the traces of the earlier records followed by the trace of the
failing call, so no later record is persisted, the README is not persisted, and
the files already written remain (no rollback event exists). -/
theorem first_error_aborts_pipeline (env : Env) (resp : List Char)
    (pre post : List (List Char × List Char)) (g code s : List Char)
    (ktr : List Eff)
    (hllm : env.llm = Except.ok resp)
    (hparse : parseBlocks resp = pre ++ (g, code) :: post)
    (hpre : ∀ r ∈ pre, okRecord env r)
    (hname : (pyStrip (sanitize g)).isEmpty = false)
    (hk : writeCodes env code (sanitize g) = (Except.ok s, ktr))
    (herr : errTok.isPrefixOf s = true) :
    execute env = (s, recsTrace env pre ++ ktr) := by
  have hk2 : processRecords env ((g, code) :: post) = (LoopOut.early s, ktr) := by
    rw [processRecords_cons, if_neg (by simp [hname]), hk]
    simp [herr]
  rw [execute_eq]
  simp only [hllm, hparse, processRecords_append_ok hpre, hk2]

/-- Witness for C3: three parsed records; the write of the second fails,
`_execute` returns that error, the write of the first file stays in the
trace, and neither the third record nor the README is written. -/
theorem first_error_aborts_pipeline_witness :
    execute envC3 =
      (errSaveMsg ++ ("disk full").data,
        [Eff.sessionOpen, Eff.fileWrite (("/w/a.py").data) (("A").data),
          Eff.sessionClose, Eff.sessionOpen, Eff.sessionClose]) := by
  have h := first_error_aborts_pipeline envC3 respC3
    [((("a.py").data), ("A").data)] [((("c.py").data), ("C").data)]
    (("b.py").data) (("B").data) (errSaveMsg ++ ("disk full").data)
    [Eff.sessionOpen, Eff.sessionClose]
    rfl (by decide)
    (fun r hr => by
      rw [List.mem_singleton] at hr
      subst hr
      exact Or.inr rfl)
    (by decide) rfl (by decide)
  rw [h]
  decide

/-- C4: a response without any fence delimiter parses to zero file
records, and the only file persisted is `README.md`, whose content is
the entire response. -/
theorem no_fence_all_readme (env : Env) (resp : List Char)
    (hllm : env.llm = Except.ok resp) (hok : EnvOk env)
    (hnf : hasFence resp = false) :
    parseBlocks resp = [] ∧
      (execute env).1 = successMsg ∧
      writesOf (execute env).2 =
        [(finalPath env.rootDir env.cwd (("README.md").data), resp)] := by
  have hp := parse_noFence hnf
  obtain ⟨h1, h2⟩ := execute_envOk hllm hok
  refine ⟨hp, h1, ?_⟩
  rw [h2, hp, beforeFence_noFence hnf]
  rfl

/-- Witness for C4 on a concrete fence-free response. -/
theorem no_fence_all_readme_witness :
    parseBlocks (("just a plain readme text").data) = [] ∧
      (execute envC4).1 = successMsg ∧
      writesOf (execute envC4).2 =
        [((("/w/out/README.md").data), ("just a plain readme text").data)] := by
  have h := no_fence_all_readme envC4 (("just a plain readme text").data) rfl
    ⟨rfl, fun _ => rfl, fun f m hx => RegResult.noConfusion hx, fun _ => rfl,
      fun _ => rfl⟩
    (by decide)
  refine ⟨h.1, h.2.1, ?_⟩
  rw [h.2.2]
  decide

/-- C5 counterexample: for the configured root `a//` (resolved against
working directory `/w`) and logical name `f`, the destination path is
`/w/a//f`, which cannot be decomposed as a root ending in exactly one
separator followed by the logical name — the claimed "exactly one
trailing path separator" fails because the code appends a separator only
when one is missing and keeps any existing extra separators. -/
theorem resolver_counterexample :
    ¬∃ r : List Char,
        finalPath (some (("a//").data)) (("/w").data) ['f'] = r ++ ['f'] ∧
          endsWithOneSep r = true := by
  rintro ⟨r, h1, h2⟩
  have hval : finalPath (some (("a//").data)) (("/w").data) ['f'] =
      ("/w/a//").data ++ ['f'] := by decide
  rw [hval] at h1
  have hr : ("/w/a//").data = r := List.append_cancel_right h1
  rw [← hr] at h2
  exact absurd h2 (by decide)

/-- C5 amended: with no configured root the destination is the working
directory, a separator and the logical name; with a configured root the
destination is the normalized root followed by the logical name, where
the normalized root is the root prefixed by the working directory when
not starting with `/`, with a separator appended only when the root does
not already end with one — so it ends with at least one (not exactly
one) trailing separator.  Resolution is a pure function by
construction. -/
theorem resolver_amended (root cwd fname : List Char) :
    finalPath none cwd fname = cwd ++ '/' :: fname ∧
      finalPath (some root) cwd fname = normRoot root cwd ++ fname ∧
      List.isSuffixOf ['/'] (normRoot root cwd) = true ∧
      normRoot root cwd =
        (if List.isSuffixOf ['/']
            (if List.isPrefixOf ['/'] root then root else cwd ++ '/' :: root) then
          (if List.isPrefixOf ['/'] root then root else cwd ++ '/' :: root)
        else
          (if List.isPrefixOf ['/'] root then root else cwd ++ '/' :: root) ++ ['/']) := by
  refine ⟨rfl, rfl, ?_, rfl⟩
  unfold normRoot
  split
  · split
    · assumption
    · exact sep_suffix_append _
  · split
    · assumption
    · exact sep_suffix_append _

/-- C6: a record whose captured filename sanitizes (and strips) to the
empty string is skipped silently: the loop state and trace are exactly
those of the remaining records — no persist call, no file write, no
error. -/
theorem empty_name_skipped (env : Env) (g code : List Char)
    (h : (pyStrip (sanitize g)).isEmpty = true)
    (rest : List (List Char × List Char)) :
    processRecords env ((g, code) :: rest) = processRecords env rest := by
  rw [processRecords_cons, if_pos h]

/-- Witness for C6: a filename consisting only of forbidden characters
is dropped and the loop finishes with an empty trace. -/
theorem empty_name_skipped_witness :
    processRecords env0 [((("<>?*").data), ("x").data)] = (LoopOut.done, []) := by
  rw [empty_name_skipped env0 (("<>?*").data) (("x").data) (by decide) []]
  rfl

/-- C7: `_execute` never raises (the model returns a plain result for
every environment) and its result is either exactly the success string
or a string starting with `"Error"`; the inner success string
`"Codes saved successfully"` never escapes at this level. -/
theorem execute_result_contract (env : Env) :
    ((execute env).1 = successMsg ∨ errTok.isPrefixOf (execute env).1 = true) ∧
      (execute env).1 ≠ okSave := by
  suffices hs : (execute env).1 = successMsg ∨ errTok.isPrefixOf (execute env).1 = true by
    refine ⟨hs, ?_⟩
    rcases hs with hs | hs
    · rw [hs]; decide
    · intro hq
      rw [hq] at hs
      exact absurd hs (by decide)
  cases hllm : env.llm with
  | error m =>
    have hx : execute env = (errGenMsg ++ m, []) := by
      rw [execute_eq]
      simp only [hllm]
    rw [hx]
    exact Or.inr (errTok_pre_errGen m)
  | ok content =>
    cases hpr : processRecords env (parseBlocks content) with
    | mk o tr =>
      rcases processRecords_outcomes env (parseBlocks content) with hd | ⟨s, he, hp⟩ | ⟨m, hm⟩
      · rw [hpr] at hd
        simp only at hd
        subst hd
        cases hwc : writeCodes env ((splitFence content).headD [])
            (("README.md").data) with
        | mk res tr2 =>
          cases res with
          | error m =>
            rw [execute_done_err hllm hpr hwc]
            exact Or.inr (errTok_pre_errGen m)
          | ok s =>
            rw [execute_done_ok hllm hpr hwc]
            by_cases he : errTok.isPrefixOf s = true
            · rw [if_pos (by simpa using he)]
              exact Or.inr he
            · rw [if_neg (by simpa using he)]
              exact Or.inl rfl
      · rw [hpr] at he
        simp only at he
        subst he
        rw [execute_early hllm hpr]
        exact Or.inr hp
      · rw [hpr] at hm
        simp only at hm
        subst hm
        rw [execute_raised hllm hpr]
        exact Or.inr (errTok_pre_errGen m)

/-- C8: for a persisted file whose registration yields an entry with
storage type `S3` and whose commit succeeds, the upload primitive runs
exactly once, at the path recorded in the entry; with a non-remote
storage type or no entry, no upload happens. -/
theorem s3_upload_per_commit (env : Env) (content fname : List Char)
    (hc : env.connectExn = none)
    (hw : env.writeExn (finalPath env.rootDir env.cwd fname) = none) :
    (∀ r : Resource, env.register fname = RegResult.ok r →
        env.commitExn fname = none →
        uploadsOf (writeCodes env content fname).2 =
          (if r.storage_type = ("S3").data then [r.path] else [])) ∧
      (∀ r : Resource, env.register fname = RegResult.ok r →
        ¬r.storage_type = ("S3").data →
        uploadsOf (writeCodes env content fname).2 = []) ∧
      (env.register fname = RegResult.noEntry →
        uploadsOf (writeCodes env content fname).2 = []) := by
  refine ⟨?_, ?_, ?_⟩
  · intro r hr hcm
    by_cases hs : r.storage_type = ("S3").data
    · cases hu : env.uploadExn r.path with
      | some m => simp [writeCodes, hc, hw, hr, hcm, hs, hu, uploadsOf]
      | none => simp [writeCodes, hc, hw, hr, hcm, hs, hu, uploadsOf]
    · simp [writeCodes, hc, hw, hr, hcm, hs, uploadsOf]
  · intro r hr hs
    cases hcm : env.commitExn fname with
    | some m => simp [writeCodes, hc, hw, hr, hcm, uploadsOf]
    | none => simp [writeCodes, hc, hw, hr, hcm, hs, uploadsOf]
  · intro hr
    simp [writeCodes, hc, hw, hr, uploadsOf]

/-- Witness for C8: a concrete S3 registration leads to exactly one
upload at the recorded path. -/
theorem s3_upload_per_commit_witness :
    uploadsOf (writeCodes envC8 (("C").data) (("f.py").data)).2 =
      [("kept/path.py").data] := by
  have h := (s3_upload_per_commit envC8 (("C").data) (("f.py").data) rfl rfl).1
    ⟨("S3").data, ("kept/path.py").data⟩ rfl rfl
  rw [h]
  decide

/-- C9: on an all-success run the README guard is always satisfied
(splitting any text yields at least one piece), `_execute` succeeds, and
the persisted files are exactly the parsed record files followed — in
last position, hence overwriting any earlier record of the same name —
by `README.md`, whose content is the prefix of the response before the
first fence delimiter (including any filename line there). -/
theorem readme_always_last_write (env : Env) (resp : List Char)
    (hllm : env.llm = Except.ok resp) (h : EnvOk env) :
    0 < (splitFence resp).length ∧
      (execute env).1 = successMsg ∧
      writesOf (execute env).2 =
        successWrites env (parseBlocks resp) ++
          [(finalPath env.rootDir env.cwd (("README.md").data), beforeFence resp)] :=
  ⟨splitFence_len_pos resp, (execute_envOk hllm h).1, (execute_envOk hllm h).2⟩

/-- Witness for C9: one parsed record, then the README (containing the
filename line before the first fence) written last. -/
theorem readme_always_last_write_witness :
    0 < (splitFence respC9).length ∧
      (execute envC9).1 = successMsg ∧
      writesOf (execute envC9).2 =
        [((("/w/out/x.py").data), ("A = 1\n").data),
          ((("/w/out/README.md").data), ("x.py\n").data)] := by
  have h := readme_always_last_write envC9 respC9 rfl
    ⟨rfl, fun _ => rfl, fun f m hx => RegResult.noConfusion hx, fun _ => rfl,
      fun _ => rfl⟩
  refine ⟨h.1, h.2.1, ?_⟩
  rw [h.2.2]
  decide

/-- C10: the captured filename is the maximal whitespace-free run just
before the newline preceding the opening fence: a block preceded by
prose ending in whitespace (for example a line `File: main.py` or a
sentence) yields a record named after only the trailing token. -/
theorem trailing_token_captured (prose : List Char) (w : Char) (b : Block)
    (fin : List Char)
    (hp : prose.all (fun c => !(c = btick)) = true)
    (hw : isPyWs w = true)
    (hb : blockOk b = true)
    (hfin : fin.all (fun c => !(c = btick)) = true) :
    parseBlocks (prose ++ w :: (renderBlock b ++ fin)) = [(b.fname, b.content)] := by
  have h1 : prose ++ w :: (renderBlock b ++ fin) =
      (prose ++ [w]) ++ (renderBlock b ++ fin) := by simp
  rw [h1, parse_sep_skip (sepOk_append_ws hp hw) (fence_notPre_block hb _)]
  rw [parseBlocks_some (matchAt_block hb _)]
  rw [parse_noBT hfin]

/-- Witness for C10: the text before the fence is `File: util.js`; only
`util.js` becomes the filename of the record. -/
theorem trailing_token_captured_witness :
    parseBlocks ((("File:").data) ++ ' ' :: (renderBlock blkB ++ (("\ndone").data))) =
      [((("util.js").data), ("let x = 2;\n").data)] := by
  rw [trailing_token_captured (("File:").data) ' ' blkB (("\ndone").data)
    (by decide) (by decide) (by decide) (by decide)]
  decide

end CodingTool
